import Mathlib

/-
Verification of the pico-filesystem core against its design description.
Shallow embedding of:
  src/pfs/pname.c          (path joining and serialization)
  src/device/pfs_dev_uart.c (UART ring buffer, read loop, pin setup)
  src/flash/pfs_ffs.c       (flash filesystem construction)
Heap allocation is modelled by an oracle of success bits plus a live
allocation counter, so that out-of-memory behaviour can be stated.
-/

namespace PicoFS

/-- Allocation model: `oracle` lists the outcomes of successive calls to
pfs_malloc (an exhausted oracle means every further allocation succeeds),
`live` counts allocations not yet freed, `failed` records whether any
allocation has failed so far. -/
structure Mem where
  oracle : List Bool
  live : Nat
  failed : Bool
deriving DecidableEq, Repr

/-- pfs_malloc: returns success and the updated memory state. -/
def malloc (m : Mem) : Bool × Mem :=
  match m.oracle with
  | [] => (true, { m with live := m.live + 1 })
  | b :: rest =>
    if b then (true, { oracle := rest, live := m.live + 1, failed := m.failed })
    else (false, { oracle := rest, live := m.live, failed := true })

/-- pfs_free of one block. -/
def mfree (m : Mem) : Mem := { m with live := m.live - 1 }

/-- pfs_free of `n` blocks. -/
def freeN (n : Nat) (m : Mem) : Mem := { m with live := m.live - n }

/-- Initial memory: empty oracle (all allocations succeed), nothing live. -/
def mem0 : Mem := ⟨[], 0, false⟩

/-! ## pname.c -/

/-- Separator test used throughout pname_scan: '/' or backslash. -/
def isSep (c : Char) : Bool := c == '/' || c == '\\'

/-- The singleton root segment (name = &rootdir, len = 1). -/
def rootSeg : List Char := ['/']

/-- The segmentation loop of pname_scan (lines 77-92): split the input on
runs of separator characters into maximal non-empty runs of
non-separator characters.  `cur` is the segment being accumulated, in
reverse order; this structural formulation replaces the two-pointer
scan of the source. -/
def splitSegs : List Char → List Char → List (List Char)
  | [], cur => if cur.isEmpty then [] else [cur.reverse]
  | c :: rest, cur =>
    if isSep c then
      if cur.isEmpty then splitSegs rest [] else cur.reverse :: splitSegs rest []
    else splitSegs rest (c :: cur)

/-- Segment filter of pname_scan line 83: a raw segment is linked unless it
is longer than one character nowhere and starts with a dot, i.e. the
single segment "." is dropped. -/
def keepSeg (seg : List Char) : Bool :=
  decide (1 < seg.length) || !(seg.head? == some '.')

/-- The segment list produced by pname_scan: a root segment if the input
starts with a separator (lines 68-76), then the separator-split
segments with "." dropped. -/
def pname_scanSegs (l : List Char) : List (List Char) :=
  (match l.head? with
   | some c => if isSep c then [rootSeg] else []
   | none => []) ++ (splitSegs l []).filter keepSeg

/-- The node allocations performed by pname_scan, one per linked segment,
stopping at the first failure.  Returns overall success, the number of
nodes actually allocated, and the final memory. -/
def scanAlloc : List (List Char) → Mem → Bool × Nat × Mem
  | [], m => (true, 0, m)
  | _ :: rest, m =>
    let r := malloc m
    if r.1 then
      let s := scanAlloc rest r.2
      (s.1, s.2.1 + 1, s.2.2)
    else (false, 0, r.2)

/-- pname_create: allocate the list header, then scan the path allocating
one node per segment; on any allocation failure pname_delete frees all
nodes linked so far together with the header and NULL is returned. -/
def pname_create (s : List Char) (m : Mem) : Option (List (List Char)) × Mem :=
  let hdr := malloc m
  if hdr.1 then
    let segs := pname_scanSegs s
    let r := scanAlloc segs hdr.2
    if r.1 then (some segs, r.2.2)
    else (none, freeN (r.2.1 + 1) r.2.2)
  else (none, hdr.2)

/-- The test of pname_join line 118: len == 2 and both characters dots. -/
def isDotDot (seg : List Char) : Bool :=
  seg.length == 2 && seg.getD 0 ' ' == '.' && seg.getD 1 ' ' == '.'

/-- pname_join (lines 112-134): unlink each segment of the addition in
order; ".." drops the last base segment when present and not the root
(freeing both nodes, or just the ".." node); a root segment clears the
whole base list (pname_clean, freeing its nodes) before being linked;
anything else is linked at the tail. -/
def pname_join : List (List Char) → List (List Char) → Mem → List (List Char) × Mem
  | l1, [], m => (l1, m)
  | l1, seg :: rest, m =>
    if isDotDot seg then
      match l1.getLast? with
      | some lastSeg =>
        if lastSeg.head? = some '/' then pname_join l1 rest (mfree m)
        else pname_join l1.dropLast rest (mfree (mfree m))
      | none => pname_join l1 rest (mfree m)
    else if seg.head? = some '/' then
      pname_join [seg] rest (freeN l1.length m)
    else
      pname_join (l1 ++ [seg]) rest m

/-- The string built by pname_mkname (lines 147-165): every segment whose
first character is not '/' is written as '/' followed by its name; if
nothing was written the result is the single character '/'. -/
def mkname_core (l : List (List Char)) : List Char :=
  let body := l.foldl
    (fun acc seg => if seg.head? = some '/' then acc else acc ++ '/' :: seg)
    ([] : List Char)
  if body.isEmpty then ['/'] else body

/-- pname_mkname: one allocation for the output string; NULL on failure. -/
def pname_mkname (l : List (List Char)) (m : Mem) : Option (List Char) × Mem :=
  let r := malloc m
  if r.1 then (some (mkname_core l), r.2) else (none, r.2)

/-- pname_append (lines 169-184): create both lists (cleaning up pn1 when
pn2 fails), join, serialize, then delete both lists — pn1 still holds
the joined segments plus its header, pn2 only its header. -/
def pname_append (s1 s2 : List Char) (m : Mem) : Option (List Char) × Mem :=
  match pname_create s1 m with
  | (none, m1) => (none, m1)
  | (some l1, m1) =>
    match pname_create s2 m1 with
    | (none, m2) => (none, freeN (l1.length + 1) m2)
    | (some l2, m2) =>
      match pname_join l1 l2 m2 with
      | (l, m3) =>
        match pname_mkname l m3 with
        | (os, m4) => (os, freeN (l.length + 2) m4)

/-- The surviving segment list of a join, for stating serialization
properties. -/
def pname_surviving (s1 s2 : List Char) : List (List Char) :=
  (pname_join (pname_scanSegs s1) (pname_scanSegs s2) mem0).1

/-- Spec-side serializer, following the amended wording of the spec: each
surviving segment other than the root marker is emitted as '/' followed
by its name, in order; an empty emission serializes to "/". -/
def serializeSpec (l : List (List Char)) : List Char :=
  let body := (l.filter (fun seg => !(seg == rootSeg))).foldr
    (fun seg acc => '/' :: seg ++ acc) []
  if body = [] then ['/'] else body

/-- Spec-side ".." step on the base list, following the claim wording:
remove the last segment when it exists and is not the root marker,
otherwise leave the list unchanged. -/
def specDropLast (l : List (List Char)) : List (List Char) :=
  match l.getLast? with
  | some seg => if seg = rootSeg then l else l.dropLast
  | none => l

/-- Backslash-to-slash character replacement, for stating that both
separators are treated alike. -/
def deback (c : Char) : Char := if c = '\\' then '/' else c

example : (pname_append "/usr/local".toList "../bin".toList mem0).1
    = some "/usr/bin".toList := by decide
example : (pname_append "/".toList "..".toList mem0).1 = some "/".toList := by decide
example : (pname_append "/a".toList "/b".toList mem0).1 = some "/b".toList := by decide
example : (pname_append "/a".toList "./b/./c".toList mem0).1
    = some "/a/b/c".toList := by decide
example : (pname_append "rel/path".toList "../../x".toList mem0).1
    = some "/x".toList := by decide

/-! ## pfs_dev_uart.c -/

/-- Length of the serial receive buffer (must be a power of 2). -/
def NDATA : Nat := 512

/-- The UART receive ring buffer: read index, write index, and the data
array modelled as a function from index to byte. -/
structure UartBuf where
  rptr : Nat
  wptr : Nat
  data : Nat → Nat

/-- The limit index computed at uart_input line 52: the C expression
(rptr - 1) & (NDATA - 1), written without wraparound subtraction; the
two agree for rptr < NDATA. -/
def uart_wend (rptr : Nat) : Nat := (rptr + (NDATA - 1)) % NDATA

/-- The fill loop of uart_input (lines 53-58): while the write index has
not reached the limit and the hardware has bytes pending, store one
byte at the write index and advance it modulo NDATA.  The pending
hardware bytes are the list `inc`; the echo write is a hardware side
effect outside the model. -/
def uart_input_loop (wend : Nat) : UartBuf → List Nat → UartBuf × List Nat
  | rb, [] => (rb, [])
  | rb, b :: rest =>
    if rb.wptr = wend then (rb, b :: rest)
    else uart_input_loop wend
      { rb with data := fun i => if i = rb.wptr then b else rb.data i,
                wptr := (rb.wptr + 1) % NDATA } rest

/-- uart_input: run the fill loop; the returned Bool records whether the
buffer ended full, in which case the source deasserts RTS and masks the
receive interrupt (lines 59-63). -/
def uart_input (rb : UartBuf) (inc : List Nat) : UartBuf × List Nat × Bool :=
  let wend := uart_wend rb.rptr
  let r := uart_input_loop wend rb inc
  (r.1, r.2, r.1.wptr == wend)

/-- The pending byte count reported by the IOC_RQ_COUNT ioctl (line 138):
the C expression (wptr - rptr) & (NDATA - 1), written without
wraparound subtraction; the two agree for indices below NDATA. -/
def pendingCount (rb : UartBuf) : Nat := ((rb.wptr + NDATA) - rb.rptr) % NDATA

/-- The IOC_RQ_PURGE ioctl (lines 133-136): reset both indices. -/
def uart_purge (rb : UartBuf) : UartBuf := { rb with rptr := 0, wptr := 0 }

/-- Modelled from the spec: the header defining the IOC_MD_* mode bits is
not part of the sources; spec section 6 describes the mode word as
independent bits for echo, non-blocking, return-on-any-byte, CR-to-LF
translation and terminator-match, with the terminator byte in the low
byte of the word (the source reads it as mode & 0xFF). -/
structure UartMode where
  echo : Bool
  nblock : Bool
  anyb : Bool
  chr : Bool
  tlf : Bool
  term : Nat

/-- The copy loop of uart_read (lines 85-109): copy one byte at a time
from the ring buffer, advancing the read index modulo NDATA; when
terminator mode is on and the byte just copied equals the configured
terminator, optionally replace it by a newline, stop and return.
Modelling note: the hardware delivers no further bytes during the loop
and the deadline is treated as reached, so on an empty buffer every
exit path of the source (non-blocking, any-data, timeout) returns with
the bytes copied so far, which is what this definition does. -/
def uart_read_loop (mode : UartMode) : UartBuf → Nat → List Nat → UartBuf × List Nat
  | rb, 0, acc => (rb, acc)
  | rb, Nat.succ len, acc =>
    if rb.rptr = rb.wptr then (rb, acc)
    else
      let b := rb.data rb.rptr
      let rb2 := { rb with rptr := (rb.rptr + 1) % NDATA }
      if mode.chr && (b == mode.term) then
        (rb2, acc ++ [if mode.tlf then 10 else b])
      else uart_read_loop mode rb2 len (acc ++ [b])

/-- uart_read: drain the hardware into the buffer (line 84) and run the
copy loop; returns the final buffer state and the bytes stored into
the caller buffer (their number is the returned nread). -/
def uart_read (rb : UartBuf) (inc : List Nat) (mode : UartMode) (len : Nat) :
    UartBuf × List Nat :=
  let r := uart_input rb inc
  uart_read_loop mode r.1 len []

/-- Serial configuration record (spec section 6): baud, data bits, stop
bits, parity and the four optional pins, -1 meaning not requested. -/
structure SERIAL_CONFIG where
  baud : Int
  data : Int
  stop : Int
  parity : Int
  tx : Int
  rx : Int
  cts : Int
  rts : Int

/-- Parity constants of the Pico SDK uart interface. -/
def UART_PARITY_NONE : Int := 0
/-- Parity constants of the Pico SDK uart interface. -/
def UART_PARITY_EVEN : Int := 1
/-- Parity constants of the Pico SDK uart interface. -/
def UART_PARITY_ODD : Int := 2

/-- uart_pin_valid (lines 161-174): a pin is valid for UART uid and
function index func when pin - func lands on one of the alternate
function positions of that UART. -/
def uart_pin_valid (uid func pin : Int) : Bool :=
  if pin < 0 || pin > 29 then false
  else
    let p := pin - func
    if uid == 0 then p == 0 || p == 12 || p == 16 || p == 28
    else if uid == 1 then p == 4 || p == 8 || p == 20 || p == 24
    else false

/-- One requested-pin block of uopen (e.g. lines 184-188): when the pin is
requested (non-negative), an invalid pin aborts with the commits made
so far, a valid pin is committed via gpio_set_function and appended to
the commit trace `g`. -/
def pinStep (uid func pin : Int) (g : List Int) : Bool × List Int :=
  if 0 ≤ pin then
    if uart_pin_valid uid func pin then (true, g ++ [pin])
    else (false, g)
  else (true, g)

/-- uopen (lines 176-228): after uart_init (success modelled by initOk),
process tx, rx, cts, rts in order, then range-check data bits, stop
bits and parity.  Besides success, the list of pins passed to
gpio_set_function, in call order, is returned.  Interrupt and flow
control register writes are hardware side effects outside the model;
the source is missing a final return statement and the success path is
modelled as returning true, its clear intent. -/
def uopen (uid : Int) (initOk : Bool) (sc : SERIAL_CONFIG) : Bool × List Int :=
  if initOk then
    match pinStep uid 0 sc.tx [] with
    | (false, g) => (false, g)
    | (true, g0) =>
      match pinStep uid 1 sc.rx g0 with
      | (false, g) => (false, g)
      | (true, g1) =>
        match pinStep uid 2 sc.cts g1 with
        | (false, g) => (false, g)
        | (true, g2) =>
          match pinStep uid 3 sc.rts g2 with
          | (false, g) => (false, g)
          | (true, g3) =>
            if sc.data < 5 || sc.data > 8 then (false, g3)
            else if sc.stop < 1 || sc.stop > 2 then (false, g3)
            else if !(sc.parity == UART_PARITY_NONE) && !(sc.parity == UART_PARITY_EVEN)
                && !(sc.parity == UART_PARITY_ODD) then (false, g3)
            else (true, g3)
  else (false, [])

/-- pfs_dev_uart_create (lines 252-270): reject out-of-range uid values; when an
instance already exists, call uopen for its effects, ignore its result
and return the existing instance; otherwise allocate (allocOk), run
uopen and on failure release everything and return NULL.  Result: first
component true iff a non-NULL instance pointer is returned, second
component whether an instance exists afterwards. -/
def pfs_dev_uart_create (uid : Int) (exists0 : Bool) (allocOk : Bool)
    (initOk : Bool) (sc : SERIAL_CONFIG) : Bool × Bool :=
  if uid < 0 || uid > 1 then (false, exists0)
  else if exists0 then
    let _ := uopen uid initOk sc
    (true, true)
  else if allocOk then
    if (uopen uid initOk sc).1 then (true, true)
    else (false, false)
  else (false, false)

/-- Spec-side list of requested pins with their function indices, in the
order the source processes them. -/
def reqPins (sc : SERIAL_CONFIG) : List (Int × Int) :=
  (if 0 ≤ sc.tx then [(0, sc.tx)] else []) ++
  (if 0 ≤ sc.rx then [(1, sc.rx)] else []) ++
  (if 0 ≤ sc.cts then [(2, sc.cts)] else []) ++
  (if 0 ≤ sc.rts then [(3, sc.rts)] else [])

/-- Spec-side commit trace, following the amended wording: the pins
committed are exactly the valid requested pins strictly before the
first invalid requested pin, in processing order. -/
def committedSpec (uid : Int) (sc : SERIAL_CONFIG) : List Int :=
  ((reqPins sc).takeWhile (fun pr => uart_pin_valid uid pr.1 pr.2)).map Prod.snd

/-! ## pfs_ffs.c -/

/-- Results returned by the littlefs library calls made during
pfs_ffs_create: the first mount, the format, and the remount. -/
structure LfsDev where
  m1 : Int
  fmt : Int
  m2 : Int

/-- Instrumentation for pfs_ffs_create: number of lfs_mount calls, number
of lfs_format calls, and count of live instance allocations. -/
structure FfsSt where
  mounts : Nat
  formats : Nat
  live : Nat
deriving DecidableEq, Repr

/-- pfs_ffs_create (lines 247-265): allocate the instance, attempt mount;
if it fails, format, and if the format succeeds, mount again; if the
final result is still negative, free the instance and return NULL.
First component: whether a filesystem pointer is returned. -/
def pfs_ffs_create (allocOk : Bool) (dev : LfsDev) (st : FfsSt) : Bool × FfsSt :=
  if allocOk then
    let st1 : FfsSt := { st with live := st.live + 1 }
    let st2 : FfsSt := { st1 with mounts := st1.mounts + 1 }
    let rst :=
      if dev.m1 < 0 then
        let st3 : FfsSt := { st2 with formats := st2.formats + 1 }
        if dev.fmt = 0 then (dev.m2, { st3 with mounts := st3.mounts + 1 })
        else (dev.fmt, st3)
      else (dev.m1, st2)
    if rst.1 < 0 then (false, { rst.2 with live := rst.2.live - 1 })
    else (true, rst.2)
  else (false, st)

example : uopen 0 true ⟨115200, 8, 1, 0, 0, 5, -1, -1⟩ = (false, [0]) := by decide
example : (pfs_ffs_create true ⟨-1, 0, 0⟩ ⟨0, 0, 0⟩) = (true, ⟨2, 1, 1⟩) := by decide
example : (pfs_ffs_create true ⟨-1, 0, -5⟩ ⟨0, 0, 0⟩) = (false, ⟨2, 1, 0⟩) := by decide
example : pendingCount (uart_input ⟨0, 0, fun _ => 0⟩ [7, 8, 9]).1 = 3 := by decide

/-! ## Lemmas about the allocation model -/

theorem malloc_true (m : Mem) (h : (malloc m).1 = true) :
    (malloc m).2.live = m.live + 1 ∧ (malloc m).2.failed = m.failed := by
  unfold malloc at h ⊢
  cases hm : m.oracle with
  | nil => simp [hm]
  | cons b rest => cases b <;> simp [hm] at h ⊢

theorem malloc_false (m : Mem) (h : (malloc m).1 = false) :
    (malloc m).2.live = m.live ∧ (malloc m).2.failed = true := by
  unfold malloc at h ⊢
  cases hm : m.oracle with
  | nil => simp [hm] at h
  | cons b rest => cases b <;> simp [hm] at h ⊢

theorem malloc_empty (m : Mem) (h : m.oracle = []) :
    malloc m = (true, { m with live := m.live + 1 }) := by
  unfold malloc
  rw [h]

theorem scanAlloc_live (segs : List (List Char)) (m : Mem) :
    (scanAlloc segs m).2.2.live = m.live + (scanAlloc segs m).2.1 := by
  induction segs generalizing m with
  | nil => simp [scanAlloc]
  | cons s rest ih =>
    unfold scanAlloc
    cases hb : (malloc m).1 with
    | true =>
      simp only [hb, if_true]
      have h1 := ih (malloc m).2
      have h2 := (malloc_true m hb).1
      omega
    | false =>
      simp only [hb]
      simp [(malloc_false m hb).1]

theorem scanAlloc_failed_true (segs : List (List Char)) (m : Mem)
    (h : (scanAlloc segs m).1 = true) :
    (scanAlloc segs m).2.2.failed = m.failed := by
  induction segs generalizing m with
  | nil => simp [scanAlloc]
  | cons s rest ih =>
    unfold scanAlloc at h ⊢
    cases hb : (malloc m).1 with
    | true =>
      simp only [hb, if_true] at h ⊢
      rw [ih (malloc m).2 h, (malloc_true m hb).2]
    | false => simp [hb] at h

theorem scanAlloc_failed_false (segs : List (List Char)) (m : Mem)
    (h : (scanAlloc segs m).1 = false) :
    (scanAlloc segs m).2.2.failed = true := by
  induction segs generalizing m with
  | nil => simp [scanAlloc] at h
  | cons s rest ih =>
    unfold scanAlloc at h ⊢
    cases hb : (malloc m).1 with
    | true =>
      simp only [hb, if_true] at h ⊢
      exact ih (malloc m).2 h
    | false =>
      simp only [hb, Bool.false_eq_true, if_false]
      exact (malloc_false m hb).2

theorem scanAlloc_empty (segs : List (List Char)) (m : Mem) (h : m.oracle = []) :
    scanAlloc segs m = (true, segs.length, { m with live := m.live + segs.length }) := by
  induction segs generalizing m with
  | nil => simp [scanAlloc]
  | cons s rest ih =>
    unfold scanAlloc
    rw [malloc_empty m h]
    simp [ih, h, Nat.add_assoc, Nat.add_comm 1 rest.length]

theorem scanAlloc_count_true (segs : List (List Char)) (m : Mem)
    (h : (scanAlloc segs m).1 = true) :
    (scanAlloc segs m).2.1 = segs.length := by
  induction segs generalizing m with
  | nil => simp [scanAlloc]
  | cons s rest ih =>
    unfold scanAlloc at h ⊢
    cases hb : (malloc m).1 with
    | true =>
      simp only [hb, if_true] at h ⊢
      rw [ih (malloc m).2 h]
      simp
    | false => simp [hb] at h

theorem pname_create_some (s : List Char) (m : Mem) (l : List (List Char))
    (h : (pname_create s m).1 = some l) :
    l = pname_scanSegs s ∧
    (pname_create s m).2.live = m.live + 1 + l.length ∧
    (pname_create s m).2.failed = m.failed := by
  unfold pname_create at h ⊢
  cases hb : (malloc m).1 with
  | true =>
    simp only [hb, if_true] at h ⊢
    cases hs : (scanAlloc (pname_scanSegs s) (malloc m).2).1 with
    | true =>
      simp only [hs, if_true] at h ⊢
      cases h
      refine ⟨rfl, ?_, ?_⟩
      · have h1 := scanAlloc_live (pname_scanSegs s) (malloc m).2
        have h2 := (malloc_true m hb).1
        have h3 := scanAlloc_count_true (pname_scanSegs s) (malloc m).2 hs
        omega
      · rw [scanAlloc_failed_true _ _ hs, (malloc_true m hb).2]
    | false => simp [hs] at h
  | false => simp [hb] at h

theorem pname_create_none (s : List Char) (m : Mem)
    (h : (pname_create s m).1 = none) :
    (pname_create s m).2.live = m.live ∧ (pname_create s m).2.failed = true := by
  unfold pname_create at h ⊢
  cases hb : (malloc m).1 with
  | true =>
    simp only [hb, if_true] at h ⊢
    cases hs : (scanAlloc (pname_scanSegs s) (malloc m).2).1 with
    | true => simp [hs] at h
    | false =>
      simp only [hs, Bool.false_eq_true, if_false, freeN]
      have h1 := scanAlloc_live (pname_scanSegs s) (malloc m).2
      have h2 := (malloc_true m hb).1
      have h3 := scanAlloc_failed_false (pname_scanSegs s) (malloc m).2 hs
      constructor
      · omega
      · exact h3
  | false =>
    simp only [hb, Bool.false_eq_true, if_false]
    exact ⟨(malloc_false m hb).1, (malloc_false m hb).2⟩

theorem pname_create_empty (s : List Char) (m : Mem) (h : m.oracle = []) :
    pname_create s m =
      (some (pname_scanSegs s),
       { m with live := m.live + 1 + (pname_scanSegs s).length }) := by
  unfold pname_create
  rw [malloc_empty m h]
  simp only [if_true]
  rw [scanAlloc_empty _ _ (by simp [h])]
  simp [Nat.add_assoc]

theorem pname_join_fst (l1 l2 : List (List Char)) (m m' : Mem) :
    (pname_join l1 l2 m).1 = (pname_join l1 l2 m').1 := by
  induction l2 generalizing l1 m m' with
  | nil => rfl
  | cons seg rest ih =>
    simp only [pname_join]
    cases hdd : isDotDot seg with
    | true =>
      simp only [if_true]
      cases hl : l1.getLast? with
      | none => exact ih l1 _ _
      | some lastSeg =>
        by_cases hr : lastSeg.head? = some '/'
        · simp only [hr, if_true]
          exact ih l1 _ _
        · simp only [hr, if_false]
          exact ih l1.dropLast _ _
    | false =>
      simp only [Bool.false_eq_true, if_false]
      by_cases hr : seg.head? = some '/'
      · simp only [hr, if_true]
        exact ih [seg] _ _
      · simp only [hr, if_false]
        exact ih (l1 ++ [seg]) _ _

theorem pname_join_oracle_failed (l1 l2 : List (List Char)) (m : Mem) :
    (pname_join l1 l2 m).2.oracle = m.oracle ∧
    (pname_join l1 l2 m).2.failed = m.failed := by
  induction l2 generalizing l1 m with
  | nil => exact ⟨rfl, rfl⟩
  | cons seg rest ih =>
    simp only [pname_join]
    cases hdd : isDotDot seg with
    | true =>
      simp only [if_true]
      cases hl : l1.getLast? with
      | none => exact ih l1 _
      | some lastSeg =>
        by_cases hr : lastSeg.head? = some '/'
        · simp only [hr, if_true]; exact ih l1 _
        · simp only [hr, if_false]; exact ih l1.dropLast _
    | false =>
      simp only [Bool.false_eq_true, if_false]
      by_cases hr : seg.head? = some '/'
      · simp only [hr, if_true]; exact ih [seg] _
      · simp only [hr, if_false]; exact ih (l1 ++ [seg]) _

theorem pname_join_live (l1 l2 : List (List Char)) (m : Mem)
    (h : l1.length + l2.length ≤ m.live) :
    (pname_join l1 l2 m).2.live + l1.length + l2.length
      = m.live + (pname_join l1 l2 m).1.length := by
  induction l2 generalizing l1 m with
  | nil => simp [pname_join]
  | cons seg rest ih =>
    simp only [List.length_cons] at h
    simp only [pname_join, List.length_cons]
    cases hdd : isDotDot seg with
    | true =>
      simp only [if_true]
      cases hl : l1.getLast? with
      | none =>
        have hnil : l1 = [] := List.getLast?_eq_none_iff.mp hl
        subst hnil
        simp only []
        have hml : (mfree m).live = m.live - 1 := rfl
        have hln : ([] : List (List Char)).length = 0 := rfl
        have hside : ([] : List (List Char)).length + rest.length ≤ (mfree m).live := by
          omega
        have hrec := ih [] (mfree m) hside
        omega
      | some lastSeg =>
        have hml : (mfree m).live = m.live - 1 := rfl
        by_cases hr : lastSeg.head? = some '/'
        · simp only [hr, if_true]
          have hside : l1.length + rest.length ≤ (mfree m).live := by omega
          have hrec := ih l1 (mfree m) hside
          omega
        · simp only [hr, if_false]
          have hne : l1 ≠ [] := by
            intro hc; rw [hc] at hl; simp at hl
          have hpos : 1 ≤ l1.length := by
            cases l1 with
            | nil => exact absurd rfl hne
            | cons a b => simp
          have hmm : (mfree (mfree m)).live = m.live - 1 - 1 := rfl
          have hdl : l1.dropLast.length = l1.length - 1 := by
            simp [List.length_dropLast]
          have hside : l1.dropLast.length + rest.length ≤ (mfree (mfree m)).live := by
            omega
          have hrec := ih l1.dropLast (mfree (mfree m)) hside
          omega
    | false =>
      simp only [Bool.false_eq_true, if_false]
      by_cases hr : seg.head? = some '/'
      · simp only [hr, if_true]
        have hfl : (freeN l1.length m).live = m.live - l1.length := rfl
        have hsl : ([seg] : List (List Char)).length = 1 := rfl
        have hside : [seg].length + rest.length ≤ (freeN l1.length m).live := by
          omega
        have hrec := ih [seg] (freeN l1.length m) hside
        omega
      · simp only [hr, if_false]
        have hal : (l1 ++ [seg]).length = l1.length + 1 := by simp
        have hside : (l1 ++ [seg]).length + rest.length ≤ m.live := by omega
        have hrec := ih (l1 ++ [seg]) m hside
        omega

theorem pname_join_mem (l1 l2 : List (List Char)) (m : Mem) (seg : List Char)
    (h : seg ∈ (pname_join l1 l2 m).1) : seg ∈ l1 ∨ seg ∈ l2 := by
  induction l2 generalizing l1 m with
  | nil => exact Or.inl h
  | cons s2 rest ih =>
    simp only [pname_join] at h
    cases hdd : isDotDot s2 with
    | true =>
      simp only [hdd, if_true] at h
      cases hl : l1.getLast? with
      | none =>
        simp only [hl] at h
        rcases ih l1 _ h with h1 | h1
        · exact Or.inl h1
        · exact Or.inr (List.mem_cons_of_mem _ h1)
      | some lastSeg =>
        simp only [hl] at h
        by_cases hr : lastSeg.head? = some '/'
        · simp only [hr, if_true] at h
          rcases ih l1 _ h with h1 | h1
          · exact Or.inl h1
          · exact Or.inr (List.mem_cons_of_mem _ h1)
        · simp only [hr, if_false] at h
          rcases ih l1.dropLast _ h with h1 | h1
          · exact Or.inl (List.dropLast_subset l1 h1)
          · exact Or.inr (List.mem_cons_of_mem _ h1)
    | false =>
      simp only [hdd, Bool.false_eq_true, if_false] at h
      by_cases hr : s2.head? = some '/'
      · simp only [hr, if_true] at h
        rcases ih [s2] _ h with h1 | h1
        · simp at h1
          exact Or.inr (h1 ▸ List.mem_cons_self _ _)
        · exact Or.inr (List.mem_cons_of_mem _ h1)
      · simp only [hr, if_false] at h
        rcases ih (l1 ++ [s2]) _ h with h1 | h1
        · rcases List.mem_append.mp h1 with h2 | h2
          · exact Or.inl h2
          · simp at h2
            exact Or.inr (h2 ▸ List.mem_cons_self _ _)
        · exact Or.inr (List.mem_cons_of_mem _ h1)

theorem pname_append_empty (s1 s2 : List Char) (m : Mem) (h : m.oracle = []) :
    (pname_append s1 s2 m).1
      = some (mkname_core (pname_join (pname_scanSegs s1) (pname_scanSegs s2) mem0).1) := by
  have hc1 := pname_create_empty s1 m h
  have hc2 := pname_create_empty s2
    ({ m with live := m.live + 1 + (pname_scanSegs s1).length }) h
  simp only [pname_append, hc1, hc2]
  rcases hj : pname_join (pname_scanSegs s1) (pname_scanSegs s2)
      ({ oracle := m.oracle, live := m.live + 1 + (pname_scanSegs s1).length + 1
          + (pname_scanSegs s2).length, failed := m.failed } : Mem) with ⟨l, m3⟩
  have hjo := (pname_join_oracle_failed (pname_scanSegs s1) (pname_scanSegs s2)
      ({ oracle := m.oracle, live := m.live + 1 + (pname_scanSegs s1).length + 1
          + (pname_scanSegs s2).length, failed := m.failed } : Mem)).1
  rw [hj] at hjo
  have hl : l = (pname_join (pname_scanSegs s1) (pname_scanSegs s2) mem0).1 := by
    have := congrArg Prod.fst hj
    simp at this
    rw [← this]
    exact pname_join_fst _ _ _ mem0
  have hm3 : m3.oracle = [] := by rw [hjo]; exact h
  unfold pname_mkname
  rw [malloc_empty m3 hm3]
  simp [hl]

theorem isSep_deback (c : Char) : isSep (deback c) = isSep c := by
  unfold deback isSep
  by_cases h : c = '\\' <;> simp [h]

theorem deback_of_not_sep (c : Char) (h : isSep c = false) : deback c = c := by
  unfold deback
  unfold isSep at h
  simp at h
  simp [h.2]

theorem splitSegs_deback (l : List Char) (cur : List Char) :
    splitSegs (l.map deback) cur = splitSegs l cur := by
  induction l generalizing cur with
  | nil => rfl
  | cons c rest ih =>
    simp only [List.map_cons, splitSegs]
    cases hs : isSep c with
    | true =>
      rw [isSep_deback, hs]
      simp only [if_true]
      by_cases hc : cur.isEmpty <;> simp [hc, ih]
    | false =>
      rw [isSep_deback, hs]
      simp only [Bool.false_eq_true, if_false]
      rw [deback_of_not_sep c hs]
      exact ih (c :: cur)

theorem scanSegs_deback (l : List Char) :
    pname_scanSegs (l.map deback) = pname_scanSegs l := by
  unfold pname_scanSegs
  rw [splitSegs_deback]
  cases l with
  | nil => rfl
  | cons c rest =>
    simp only [List.map_cons, List.head?_cons]
    rw [isSep_deback]

theorem pname_create_deback (s : List Char) (m : Mem) :
    pname_create (s.map deback) m = pname_create s m := by
  unfold pname_create
  rw [scanSegs_deback]

theorem pname_append_deback (s1 s2 : List Char) (m : Mem) :
    pname_append (s1.map deback) (s2.map deback) m = pname_append s1 s2 m := by
  unfold pname_append
  simp only [pname_create_deback]

theorem splitSegs_wf (l : List Char) (cur : List Char)
    (hcur : ∀ c ∈ cur, isSep c = false) :
    ∀ seg ∈ splitSegs l cur, seg ≠ [] ∧ ∀ c ∈ seg, isSep c = false := by
  induction l generalizing cur with
  | nil =>
    intro seg hseg
    unfold splitSegs at hseg
    by_cases hc : cur.isEmpty
    · simp [hc] at hseg
    · simp [hc] at hseg
      subst hseg
      constructor
      · simp
        intro hnil
        rw [hnil] at hc
        simp at hc
      · intro c hcmem
        exact hcur c (List.mem_reverse.mp hcmem)
  | cons a rest ih =>
    intro seg hseg
    unfold splitSegs at hseg
    cases hs : isSep a with
    | true =>
      rw [hs] at hseg
      simp only [if_true] at hseg
      by_cases hc : cur.isEmpty
      · rw [if_pos hc] at hseg
        exact ih [] (by simp) seg hseg
      · rw [if_neg hc] at hseg
        rcases List.mem_cons.mp hseg with h1 | h1
        · subst h1
          constructor
          · simp
            intro hnil
            rw [hnil] at hc
            simp at hc
          · intro c hcmem
            exact hcur c (List.mem_reverse.mp hcmem)
        · exact ih [] (by simp) seg h1
    | false =>
      rw [hs] at hseg
      simp only [Bool.false_eq_true, if_false] at hseg
      refine ih (a :: cur) ?_ seg hseg
      intro c hcmem
      rcases List.mem_cons.mp hcmem with h1 | h1
      · subst h1; exact hs
      · exact hcur c h1

theorem scanSegs_wf (l : List Char) :
    ∀ seg ∈ pname_scanSegs l,
      seg = rootSeg ∨ (seg ≠ [] ∧ ∀ c ∈ seg, isSep c = false) := by
  intro seg hseg
  unfold pname_scanSegs at hseg
  rcases List.mem_append.mp hseg with h1 | h1
  · left
    cases hl : l.head? with
    | none => rw [hl] at h1; simp at h1
    | some c =>
      rw [hl] at h1
      by_cases hs : isSep c
      · simp [hs] at h1; exact h1
      · simp [hs] at h1
  · right
    exact splitSegs_wf l [] (by simp) seg (List.mem_filter.mp h1).1

theorem surviving_wf (s1 s2 : List Char) :
    ∀ seg ∈ pname_surviving s1 s2,
      seg = rootSeg ∨ (seg ≠ [] ∧ ∀ c ∈ seg, isSep c = false) := by
  intro seg hseg
  rcases pname_join_mem _ _ _ seg hseg with h1 | h1
  · exact scanSegs_wf s1 seg h1
  · exact scanSegs_wf s2 seg h1

theorem head_root_iff (seg : List Char)
    (h : seg = rootSeg ∨ (seg ≠ [] ∧ ∀ c ∈ seg, isSep c = false)) :
    (seg.head? = some '/' ↔ seg = rootSeg) := by
  rcases h with h | ⟨hne, hsf⟩
  · subst h; simp [rootSeg]
  · constructor
    · intro hh
      cases seg with
      | nil => simp at hh
      | cons a rest =>
        simp at hh
        have := hsf a (List.mem_cons_self _ _)
        rw [hh] at this
        simp [isSep] at this
    · intro hh
      subst hh
      have := hsf '/' (by simp [rootSeg])
      simp [isSep] at this

theorem mkname_foldl_eq (l : List (List Char)) (acc : List Char)
    (h : ∀ seg ∈ l, (seg.head? = some '/' ↔ seg = rootSeg)) :
    l.foldl (fun acc seg => if seg.head? = some '/' then acc else acc ++ '/' :: seg) acc
      = acc ++ (l.filter (fun seg => !(seg == rootSeg))).foldr
          (fun seg acc => '/' :: seg ++ acc) [] := by
  induction l generalizing acc with
  | nil => simp
  | cons seg rest ih =>
    simp only [List.foldl_cons, List.filter_cons]
    by_cases hr : seg = rootSeg
    · have hh : seg.head? = some '/' := (h seg (List.mem_cons_self _ _)).mpr hr
      rw [if_pos hh]
      have hbeq : (seg == rootSeg) = true := by simp [hr]
      simp only [hbeq, Bool.not_true, Bool.false_eq_true, if_false]
      exact ih acc (fun s hs => h s (List.mem_cons_of_mem _ hs))
    · have hh : ¬ (seg.head? = some '/') := by
        intro hc
        exact hr ((h seg (List.mem_cons_self _ _)).mp hc)
      rw [if_neg hh]
      have hbeq : (seg == rootSeg) = false := by simp [hr]
      simp only [hbeq, Bool.not_false, if_true]
      rw [ih (acc ++ '/' :: seg) (fun s hs => h s (List.mem_cons_of_mem _ hs))]
      simp [List.append_assoc]

theorem mkname_eq_serialize (l : List (List Char))
    (h : ∀ seg ∈ l, seg = rootSeg ∨ (seg ≠ [] ∧ ∀ c ∈ seg, isSep c = false)) :
    mkname_core l = serializeSpec l := by
  unfold mkname_core serializeSpec
  rw [mkname_foldl_eq l [] (fun seg hs => head_root_iff seg (h seg hs))]
  simp only [List.nil_append]
  rcases hb : (l.filter (fun seg => !(seg == rootSeg))).foldr
      (fun seg acc => '/' :: seg ++ acc) [] with _ | ⟨c, rest⟩ <;> simp

theorem mkname_mem (l : List (List Char)) (c : Char) (h : c ∈ mkname_core l) :
    c = '/' ∨ ∃ seg ∈ l, c ∈ seg := by
  have haux : ∀ (ll : List (List Char)) (acc : List Char),
      c ∈ ll.foldl (fun acc seg => if seg.head? = some '/' then acc else acc ++ '/' :: seg) acc
      → c ∈ acc ∨ c = '/' ∨ ∃ seg ∈ ll, c ∈ seg := by
    intro ll
    induction ll with
    | nil => intro acc hacc; exact Or.inl hacc
    | cons seg rest ih =>
      intro acc hacc
      simp only [List.foldl_cons] at hacc
      by_cases hh : seg.head? = some '/'
      · rw [if_pos hh] at hacc
        rcases ih acc hacc with h1 | h1 | ⟨s, hs1, hs2⟩
        · exact Or.inl h1
        · exact Or.inr (Or.inl h1)
        · exact Or.inr (Or.inr ⟨s, List.mem_cons_of_mem _ hs1, hs2⟩)
      · rw [if_neg hh] at hacc
        rcases ih (acc ++ '/' :: seg) hacc with h1 | h1 | ⟨s, hs1, hs2⟩
        · rcases List.mem_append.mp h1 with h2 | h2
          · exact Or.inl h2
          · rcases List.mem_cons.mp h2 with h3 | h3
            · exact Or.inr (Or.inl h3)
            · exact Or.inr (Or.inr ⟨seg, List.mem_cons_self _ _, h3⟩)
        · exact Or.inr (Or.inl h1)
        · exact Or.inr (Or.inr ⟨s, List.mem_cons_of_mem _ hs1, hs2⟩)
  unfold mkname_core at h
  by_cases hb : (l.foldl (fun acc seg => if seg.head? = some '/' then acc
      else acc ++ '/' :: seg) []).isEmpty
  · simp only [hb, if_true] at h
    simp at h
    exact Or.inl h
  · simp only [hb, if_false] at h
    rcases haux l [] h with h1 | h1
    · simp at h1
    · exact h1

theorem getLast?_mem_self (l : List (List Char)) (a : List Char)
    (h : l.getLast? = some a) : a ∈ l := by
  rcases List.mem_getLast?_eq_getLast (show a ∈ l.getLast? from h) with ⟨hne, heq⟩
  rw [heq]
  exact List.getLast_mem hne

/-! ## Claim theorems -/

/-- C1, counterexample: the claim says join("rel/path", "../../x") == "x"
with no leading '/' for a relative result, but pname_append emits a
leading '/' before every surviving segment, so the result is "/x". -/
theorem c1_counterexample :
    (pname_append "rel/path".toList "../../x".toList mem0).1 = some "/x".toList
    ∧ "/x".toList ≠ "x".toList := by
  constructor
  · decide
  · decide

/-- C1 (amended): for every pair of input strings, the string returned by
pname_append is each surviving segment other than the root marker
preceded by '/', concatenated in order — a leading '/' is emitted
before every surviving segment whether or not a root segment is
present — and an empty emission serializes to "/"; in particular
join("rel/path", "../../x") == "/x". -/
theorem c1_serialization (s1 s2 : List Char) :
    (pname_append s1 s2 mem0).1 = some (serializeSpec (pname_surviving s1 s2))
    ∧ (pname_append "rel/path".toList "../../x".toList mem0).1 = some "/x".toList := by
  constructor
  · rw [pname_append_empty s1 s2 mem0 rfl,
      show (pname_join (pname_scanSegs s1) (pname_scanSegs s2) mem0).1
        = pname_surviving s1 s2 from rfl,
      mkname_eq_serialize (pname_surviving s1 s2) (surviving_wf s1 s2)]
  · decide

/-- C2: each ".." segment of the addition removes the base's current last
segment when it exists and is not the root marker, and is otherwise
discarded silently; hence join("/usr/local", "../bin") == "/usr/bin"
and join("/", "..") == "/". -/
theorem c2_dotdot_ascend (l1 rest : List (List Char)) (m : Mem)
    (hwf : ∀ seg ∈ l1, seg = rootSeg ∨ seg.head? ≠ some '/') :
    (pname_join l1 (['.', '.'] :: rest) m).1 = (pname_join (specDropLast l1) rest m).1
    ∧ (pname_append "/usr/local".toList "../bin".toList mem0).1 = some "/usr/bin".toList
    ∧ (pname_append "/".toList "..".toList mem0).1 = some "/".toList := by
  refine ⟨?_, by decide, by decide⟩
  have hdd : isDotDot ['.', '.'] = true := by decide
  simp only [pname_join, hdd, if_true]
  cases hl : l1.getLast? with
  | none =>
    have hspec : specDropLast l1 = l1 := by unfold specDropLast; rw [hl]
    rw [hspec]
    exact pname_join_fst l1 rest _ m
  | some lastSeg =>
    have hmem := getLast?_mem_self l1 lastSeg hl
    simp only []
    by_cases hr : lastSeg.head? = some '/'
    · have hroot : lastSeg = rootSeg := by
        rcases hwf lastSeg hmem with h1 | h1
        · exact h1
        · exact absurd hr h1
      have hspec : specDropLast l1 = l1 := by
        unfold specDropLast
        rw [hl]
        simp only []
        rw [if_pos hroot]
      rw [if_pos hr, hspec]
      exact pname_join_fst l1 rest _ m
    · have hroot : lastSeg ≠ rootSeg := by
        intro hc
        rw [hc] at hr
        exact hr rfl
      have hspec : specDropLast l1 = l1.dropLast := by
        unfold specDropLast
        rw [hl]
        simp only []
        rw [if_neg hroot]
      rw [if_neg hr, hspec]
      exact pname_join_fst l1.dropLast rest _ m

theorem c2_witness :
    (pname_join [rootSeg, ['u']] (['.', '.'] :: []) mem0).1
      = (pname_join (specDropLast [rootSeg, ['u']]) [] mem0).1
    ∧ (pname_append "/usr/local".toList "../bin".toList mem0).1 = some "/usr/bin".toList
    ∧ (pname_append "/".toList "..".toList mem0).1 = some "/".toList :=
  c2_dotdot_ascend [rootSeg, ['u']] [] mem0 (by decide)

/-- C3: when the addition begins with a separator character, the join
clears the entire base list before relinking the addition, so the
result is independent of the base; in particular
join("/a", "/b") == "/b". -/
theorem c3_absolute_addition (s1 s1' s2 : List Char) (c : Char)
    (hh : s2.head? = some c) (hs : isSep c = true) :
    (pname_append s1 s2 mem0).1 = (pname_append s1' s2 mem0).1
    ∧ (pname_append "/a".toList "/b".toList mem0).1 = some "/b".toList := by
  refine ⟨?_, by decide⟩
  rw [pname_append_empty s1 s2 mem0 rfl, pname_append_empty s1' s2 mem0 rfl]
  have hscan : pname_scanSegs s2
      = rootSeg :: (splitSegs s2 []).filter keepSeg := by
    unfold pname_scanSegs
    simp only [hh]
    rw [hs]
    simp
  rw [hscan]
  have hstep : ∀ (l1 : List (List Char)) (m : Mem),
      (pname_join l1 (rootSeg :: (splitSegs s2 []).filter keepSeg) m).1
        = (pname_join [rootSeg] ((splitSegs s2 []).filter keepSeg) mem0).1 := by
    intro l1 m
    have hdd : isDotDot rootSeg = false := by decide
    have hr : rootSeg.head? = some '/' := rfl
    simp only [pname_join, hdd, Bool.false_eq_true, if_false, hr, if_true]
    exact pname_join_fst [rootSeg] _ _ mem0
  rw [hstep (pname_scanSegs s1) mem0, hstep (pname_scanSegs s1') mem0]

theorem c3_witness :
    (pname_append "/xx".toList "/b".toList mem0).1
      = (pname_append "yy/zz".toList "/b".toList mem0).1
    ∧ (pname_append "/a".toList "/b".toList mem0).1 = some "/b".toList :=
  c3_absolute_addition "/xx".toList "yy/zz".toList "/b".toList '/' (by decide) (by decide)

/-- C8: if any allocation fails during pname_append, the whole operation
returns NULL, every intermediate segment node allocated so far is
released (the live count returns to its initial value), and no partial
result is ever returned; when everything succeeds exactly the returned
string survives. -/
theorem c8_alloc_failure (s1 s2 : List Char) (m : Mem) (h : m.failed = false) :
    ((pname_append s1 s2 m).2.failed = true → (pname_append s1 s2 m).1 = none)
    ∧ ((pname_append s1 s2 m).1 = none → (pname_append s1 s2 m).2.failed = true)
    ∧ ((pname_append s1 s2 m).1 = none → (pname_append s1 s2 m).2.live = m.live)
    ∧ (∀ out, (pname_append s1 s2 m).1 = some out
        → (pname_append s1 s2 m).2.live = m.live + 1) := by
  rcases hc1 : pname_create s1 m with ⟨o1, m1⟩
  cases o1 with
  | none =>
    have h1 := pname_create_none s1 m (by rw [hc1])
    rw [hc1] at h1
    simp only at h1
    have hres : pname_append s1 s2 m = (none, m1) := by
      simp only [pname_append, hc1]
    rw [hres]
    exact ⟨fun _ => rfl, fun _ => h1.2, fun _ => h1.1, fun out hout => by simp at hout⟩
  | some l1 =>
    have h1 := pname_create_some s1 m l1 (by rw [hc1])
    rw [hc1] at h1
    simp only at h1
    rcases hc2 : pname_create s2 m1 with ⟨o2, m2⟩
    cases o2 with
    | none =>
      have h2 := pname_create_none s2 m1 (by rw [hc2])
      rw [hc2] at h2
      simp only at h2
      have hres : pname_append s1 s2 m = (none, freeN (l1.length + 1) m2) := by
        simp only [pname_append, hc1, hc2]
      rw [hres]
      have hfl : (freeN (l1.length + 1) m2).live = m2.live - (l1.length + 1) := rfl
      have hff : (freeN (l1.length + 1) m2).failed = m2.failed := rfl
      refine ⟨fun _ => rfl, fun _ => by rw [hff]; exact h2.2, fun _ => ?_,
        fun out hout => by simp at hout⟩
      rw [hfl]
      omega
    | some l2 =>
      have h2 := pname_create_some s2 m1 l2 (by rw [hc2])
      rw [hc2] at h2
      simp only at h2
      rcases hj : pname_join l1 l2 m2 with ⟨l, m3⟩
      have hjl := pname_join_live l1 l2 m2 (by omega)
      rw [hj] at hjl
      simp only at hjl
      have hjo := pname_join_oracle_failed l1 l2 m2
      rw [hj] at hjo
      simp only at hjo
      rcases hmk : malloc m3 with ⟨ok, m4⟩
      cases ok with
      | true =>
        have hm4 := malloc_true m3 (by rw [hmk])
        rw [hmk] at hm4
        simp only at hm4
        have hmkeq : pname_mkname l m3 = (some (mkname_core l), m4) := by
          unfold pname_mkname
          rw [hmk]
          simp
        have hres : pname_append s1 s2 m
            = (some (mkname_core l), freeN (l.length + 2) m4) := by
          simp only [pname_append, hc1, hc2, hj, hmkeq]
        rw [hres]
        have hfl : (freeN (l.length + 2) m4).live = m4.live - (l.length + 2) := rfl
        have hff : (freeN (l.length + 2) m4).failed = m4.failed := rfl
        refine ⟨fun hfail => ?_, fun hnone => by simp at hnone,
          fun hnone => by simp at hnone, fun out hout => ?_⟩
        · rw [hff, hm4.2, hjo.2, h2.2.2, h1.2.2, h] at hfail
          exact absurd hfail (by simp)
        · rw [hfl]
          omega
      | false =>
        have hm4 := malloc_false m3 (by rw [hmk])
        rw [hmk] at hm4
        simp only at hm4
        have hmkeq : pname_mkname l m3 = (none, m4) := by
          unfold pname_mkname
          rw [hmk]
          simp
        have hres : pname_append s1 s2 m = (none, freeN (l.length + 2) m4) := by
          simp only [pname_append, hc1, hc2, hj, hmkeq]
        rw [hres]
        have hfl : (freeN (l.length + 2) m4).live = m4.live - (l.length + 2) := rfl
        have hff : (freeN (l.length + 2) m4).failed = m4.failed := rfl
        refine ⟨fun _ => rfl, fun _ => by rw [hff]; exact hm4.2, fun _ => ?_,
          fun out hout => by simp at hout⟩
        rw [hfl]
        omega

theorem c8_witness :
    (pname_append ['a'] ['b'] ⟨[false], 5, false⟩).1 = none
    ∧ (pname_append ['a'] ['b'] ⟨[false], 5, false⟩).2.live = 5 :=
  ⟨(c8_alloc_failure ['a'] ['b'] ⟨[false], 5, false⟩ rfl).1 (by decide),
   (c8_alloc_failure ['a'] ['b'] ⟨[false], 5, false⟩ rfl).2.2.1 (by decide)⟩

/-- C9: pname_append treats backslash exactly like '/' on input (replacing
every backslash by '/' in both inputs changes nothing), an input
beginning with backslash produces the root segment first, and no
backslash ever appears in any output, whose separators are all '/'. -/
theorem c9_backslash_separator :
    (∀ s1 s2 m, pname_append (s1.map deback) (s2.map deback) m = pname_append s1 s2 m)
    ∧ (∀ l, (pname_scanSegs ('\\' :: l)).head? = some rootSeg)
    ∧ (∀ s1 s2 out, (pname_append s1 s2 mem0).1 = some out → '\\' ∉ out) := by
  refine ⟨pname_append_deback, ?_, ?_⟩
  · intro l
    unfold pname_scanSegs
    simp [isSep]
  · intro s1 s2 out hout
    rw [pname_append_empty s1 s2 mem0 rfl] at hout
    have hout2 : out = mkname_core (pname_surviving s1 s2) := by
      have := Option.some.inj hout.symm
      exact this
    intro hmem
    rw [hout2] at hmem
    rcases mkname_mem _ _ hmem with h1 | ⟨seg, hs1, hs2⟩
    · simp at h1
    · rcases surviving_wf s1 s2 seg hs1 with h2 | ⟨_, h2⟩
      · rw [h2] at hs2
        simp [rootSeg] at hs2
      · have := h2 '\\' hs2
        simp [isSep] at this

theorem c9_witness : '\\' ∉ "/a/b/c".toList :=
  c9_backslash_separator.2.2 "a\\b".toList "c".toList "/a/b/c".toList (by decide)

theorem pending_zero_iff (rb : UartBuf) (hr : rb.rptr < NDATA) (hw : rb.wptr < NDATA) :
    (pendingCount rb = 0 ↔ rb.rptr = rb.wptr) := by
  unfold pendingCount NDATA at *
  omega

theorem pending_full_iff (rb : UartBuf) (hr : rb.rptr < NDATA) (hw : rb.wptr < NDATA) :
    (pendingCount rb = NDATA - 1 ↔ rb.wptr = uart_wend rb.rptr) := by
  unfold pendingCount uart_wend NDATA at *
  omega

theorem uart_input_loop_fills (inc : List Nat) (rb : UartBuf)
    (hr : rb.rptr < NDATA) (hw : rb.wptr < NDATA)
    (hcap : pendingCount rb + inc.length ≤ NDATA - 1) :
    (uart_input_loop (uart_wend rb.rptr) rb inc).2 = []
    ∧ (uart_input_loop (uart_wend rb.rptr) rb inc).1.rptr = rb.rptr
    ∧ (uart_input_loop (uart_wend rb.rptr) rb inc).1.wptr < NDATA
    ∧ pendingCount (uart_input_loop (uart_wend rb.rptr) rb inc).1
        = pendingCount rb + inc.length := by
  induction inc generalizing rb with
  | nil => exact ⟨rfl, rfl, hw, rfl⟩
  | cons b rest ih =>
    simp only [List.length_cons] at hcap
    have hne : rb.wptr ≠ uart_wend rb.rptr := by
      intro hc
      have := (pending_full_iff rb hr hw).mpr hc
      unfold NDATA at this hcap
      omega
    simp only [uart_input_loop, if_neg hne, List.length_cons]
    have hpend : pendingCount
        { rb with data := fun i => if i = rb.wptr then b else rb.data i,
                  wptr := (rb.wptr + 1) % NDATA }
        = pendingCount rb + 1 := by
      show (((rb.wptr + 1) % NDATA + NDATA) - rb.rptr) % NDATA
          = ((rb.wptr + NDATA) - rb.rptr) % NDATA + 1
      unfold pendingCount at hcap
      unfold NDATA at hr hw hcap ⊢
      omega
    have hw2 : (rb.wptr + 1) % NDATA < NDATA := by
      unfold NDATA
      omega
    have hrec := ih { rb with data := fun i => if i = rb.wptr then b else rb.data i,
                              wptr := (rb.wptr + 1) % NDATA }
      hr hw2 (by rw [hpend]; omega)
    refine ⟨hrec.1, hrec.2.1, hrec.2.2.1, ?_⟩
    rw [hrec.2.2.2, hpend]
    omega

theorem uart_input_loop_stops (inc : List Nat) (wend : Nat) (rb : UartBuf)
    (h : (uart_input_loop wend rb inc).2 ≠ []) :
    (uart_input_loop wend rb inc).1.wptr = wend := by
  induction inc generalizing rb with
  | nil => simp [uart_input_loop] at h
  | cons b rest ih =>
    unfold uart_input_loop at h ⊢
    by_cases hne : rb.wptr = wend
    · rw [if_pos hne]
      exact hne
    · rw [if_neg hne] at h ⊢
      exact ih _ h

/-- C4: the receive ring buffer of capacity NDATA = 512 is full exactly
when NDATA - 1 bytes are queued unread (the fill loop stops, leaving
hardware bytes pending, only when advancing the write index by one
would equal the read index); after k < NDATA - 1 bytes are received
into an empty buffer with no reads the pending-count ioctl reports k;
and the purge ioctl resets both indices so the pending count is 0. -/
theorem c4_ring_buffer :
    (∀ rb : UartBuf, rb.rptr < NDATA → rb.wptr < NDATA →
      (pendingCount rb = NDATA - 1 ↔ rb.wptr = uart_wend rb.rptr))
    ∧ (∀ (rb : UartBuf) (inc : List Nat),
        (uart_input rb inc).2.1 ≠ [] → (uart_input rb inc).1.wptr = uart_wend rb.rptr)
    ∧ (∀ (k : Nat) (inc : List Nat) (d : Nat → Nat), inc.length = k → k < NDATA - 1 →
        pendingCount (uart_input ⟨0, 0, d⟩ inc).1 = k)
    ∧ (∀ rb : UartBuf, pendingCount (uart_purge rb) = 0) := by
  refine ⟨pending_full_iff, ?_, ?_, ?_⟩
  · intro rb inc h
    unfold uart_input at h ⊢
    exact uart_input_loop_stops inc (uart_wend rb.rptr) rb h
  · intro k inc d hlen hk
    unfold uart_input
    have h0 : pendingCount ⟨0, 0, d⟩ = 0 := by
      show ((0 + NDATA) - 0) % NDATA = 0
      unfold NDATA
      omega
    have hfill := uart_input_loop_fills inc ⟨0, 0, d⟩
      (by show (0 : Nat) < NDATA; unfold NDATA; omega)
      (by show (0 : Nat) < NDATA; unfold NDATA; omega)
      (by rw [h0, hlen]; unfold NDATA at hk ⊢; omega)
    rw [hfill.2.2.2, h0, hlen]
    omega
  · intro rb
    show ((0 + NDATA) - 0) % NDATA = 0
    unfold NDATA
    omega

theorem c4_witness :
    pendingCount (uart_input ⟨0, 0, fun _ => 0⟩ [5, 6]).1 = 2 :=
  c4_ring_buffer.2.2.1 2 [5, 6] (fun _ => 0) rfl (by decide)

theorem mod_shift_idx (r j : Nat) :
    ((r + 1) % NDATA + j) % NDATA = (r + (j + 1)) % NDATA := by
  rw [Nat.mod_add_mod]
  congr 1
  omega

theorem uart_read_loop_term (mode : UartMode) (hchr : mode.chr = true) :
    ∀ (k : Nat) (rb : UartBuf) (len : Nat) (acc : List Nat),
      rb.rptr < NDATA → rb.wptr < NDATA →
      k < pendingCount rb → k < len →
      rb.data ((rb.rptr + k) % NDATA) = mode.term →
      (∀ j, j < k → rb.data ((rb.rptr + j) % NDATA) ≠ mode.term) →
      uart_read_loop mode rb len acc
        = ({ rb with rptr := (rb.rptr + (k + 1)) % NDATA },
           acc ++ (List.range k).map (fun i => rb.data ((rb.rptr + i) % NDATA))
             ++ [if mode.tlf then 10 else mode.term]) := by
  intro k
  induction k with
  | zero =>
    intro rb len acc hr hw hk hlen hterm hpre
    cases len with
    | zero => omega
    | succ n =>
      have hne : rb.rptr ≠ rb.wptr := by
        intro hc
        have h0 := (pending_zero_iff rb hr hw).mpr hc
        omega
      have hb : rb.data rb.rptr = mode.term := by
        rw [Nat.add_zero, Nat.mod_eq_of_lt hr] at hterm
        exact hterm
      simp only [uart_read_loop, if_neg hne, hchr, hb, beq_self_eq_true,
        Bool.true_and, if_true]
      simp
  | succ kk ih =>
    intro rb len acc hr hw hk hlen hterm hpre
    cases len with
    | zero => omega
    | succ n =>
      have hne : rb.rptr ≠ rb.wptr := by
        intro hc
        have h0 := (pending_zero_iff rb hr hw).mpr hc
        omega
      have hb : rb.data rb.rptr ≠ mode.term := by
        have := hpre 0 (Nat.succ_pos kk)
        rw [Nat.add_zero, Nat.mod_eq_of_lt hr] at this
        exact this
      have hcond : (mode.chr && (rb.data rb.rptr == mode.term)) = false := by
        rw [hchr]
        simp [hb]
      simp only [uart_read_loop, if_neg hne, hcond, Bool.false_eq_true, if_false]
      have hr2 : ((rb.rptr + 1) % NDATA) < NDATA := by
        unfold NDATA
        omega
      have hpend2 : pendingCount { rb with rptr := (rb.rptr + 1) % NDATA }
          = pendingCount rb - 1 := by
        show ((rb.wptr + NDATA) - (rb.rptr + 1) % NDATA) % NDATA
            = ((rb.wptr + NDATA) - rb.rptr) % NDATA - 1
        unfold NDATA at hr hw ⊢
        omega
      have hterm2 : ({ rb with rptr := (rb.rptr + 1) % NDATA } : UartBuf).data
          ((({ rb with rptr := (rb.rptr + 1) % NDATA } : UartBuf).rptr + kk) % NDATA)
          = mode.term := by
        show rb.data (((rb.rptr + 1) % NDATA + kk) % NDATA) = mode.term
        rw [mod_shift_idx]
        exact hterm
      have hpre2 : ∀ j, j < kk →
          ({ rb with rptr := (rb.rptr + 1) % NDATA } : UartBuf).data
            ((({ rb with rptr := (rb.rptr + 1) % NDATA } : UartBuf).rptr + j) % NDATA)
            ≠ mode.term := by
        intro j hj
        show rb.data (((rb.rptr + 1) % NDATA + j) % NDATA) ≠ mode.term
        rw [mod_shift_idx]
        exact hpre (j + 1) (by omega)
      have hrec := ih { rb with rptr := (rb.rptr + 1) % NDATA } n
        (acc ++ [rb.data rb.rptr]) hr2 hw
        (by rw [hpend2]; omega) (by omega) hterm2 hpre2
      rw [hrec]
      simp only [Prod.mk.injEq]
      constructor
      · show ({ rptr := (((rb.rptr + 1) % NDATA) + (kk + 1)) % NDATA,
                wptr := rb.wptr, data := rb.data } : UartBuf)
            = { rptr := (rb.rptr + (kk + 1 + 1)) % NDATA,
                wptr := rb.wptr, data := rb.data }
        rw [mod_shift_idx]
      · show acc ++ [rb.data rb.rptr]
            ++ (List.range kk).map
                (fun i => rb.data (((rb.rptr + 1) % NDATA + i) % NDATA))
            ++ [if mode.tlf then 10 else mode.term]
          = acc ++ (List.range (kk + 1)).map
                (fun i => rb.data ((rb.rptr + i) % NDATA))
            ++ [if mode.tlf then 10 else mode.term]
        rw [List.range_succ_eq_map, List.map_cons, List.map_map]
        have hmap : (List.range kk).map
              (fun i => rb.data (((rb.rptr + 1) % NDATA + i) % NDATA))
            = (List.range kk).map
              ((fun i => rb.data ((rb.rptr + i) % NDATA)) ∘ Nat.succ) := by
          apply List.map_congr_left
          intro i _
          show rb.data (((rb.rptr + 1) % NDATA + i) % NDATA)
              = rb.data ((rb.rptr + (i + 1)) % NDATA)
          rw [mod_shift_idx]
        rw [hmap]
        have hf0 : rb.data ((rb.rptr + 0) % NDATA) = rb.data rb.rptr := by
          rw [Nat.add_zero, Nat.mod_eq_of_lt hr]
        simp [hf0]
        rw [Nat.mod_eq_of_lt hr]

/-- C7: for every UART read with terminator-match mode enabled, the copy
loop stops as soon as the configured terminator byte (the low byte of
the mode word) is copied out of the ring buffer: with the terminator at
offset k of the pending data and room for it in the caller buffer, the
output is the k preceding bytes followed by the terminator (replaced
by a newline when the CR-to-LF translation flag is set), so the
returned count k + 1 includes the terminator, and the read index stops
just past it. -/
theorem c7_terminator (rb : UartBuf) (mode : UartMode) (len k : Nat)
    (hr : rb.rptr < NDATA) (hw : rb.wptr < NDATA) (hchr : mode.chr = true)
    (hk : k < pendingCount rb) (hlen : k < len)
    (hterm : rb.data ((rb.rptr + k) % NDATA) = mode.term)
    (hpre : ∀ j, j < k → rb.data ((rb.rptr + j) % NDATA) ≠ mode.term) :
    uart_read rb [] mode len
      = ({ rb with rptr := (rb.rptr + (k + 1)) % NDATA },
         (List.range k).map (fun i => rb.data ((rb.rptr + i) % NDATA))
           ++ [if mode.tlf then 10 else mode.term]) := by
  have hloop := uart_read_loop_term mode hchr k rb len []
    hr hw hk hlen hterm hpre
  unfold uart_read uart_input uart_input_loop
  simp only []
  rw [hloop]
  simp

theorem c7_witness :
    uart_read ⟨0, 3, fun i => if i = 1 then 13 else 65⟩ []
        ⟨false, false, false, true, true, 13⟩ 10
      = (⟨2, 3, fun i => if i = 1 then 13 else 65⟩, [65, 10]) :=
  (c7_terminator ⟨0, 3, fun i => if i = 1 then 13 else 65⟩
    ⟨false, false, false, true, true, 13⟩ 10 1
    (by decide) (by decide) rfl (by decide) (by decide) (by decide)
    (by decide)).trans (by
      rw [show List.range 1 = [0] from rfl]
      simp [NDATA])

/-- C5: pfs_ffs_create attempts a mount; on failure it performs exactly one
automatic format-and-remount attempt (never more than one format, and
when the first mount succeeds none at all); if the retry also fails,
no filesystem is returned and the instance allocation is released; a
device whose first mount fails but whose post-format mount succeeds
yields a valid filesystem. -/
theorem c5_ffs_create_retry (dev : LfsDev) (st : FfsSt) (hfmt : dev.fmt ≤ 0) :
    ((pfs_ffs_create true dev st).2.formats ≤ st.formats + 1)
    ∧ (0 ≤ dev.m1 → (pfs_ffs_create true dev st).2.formats = st.formats
        ∧ (pfs_ffs_create true dev st).2.mounts = st.mounts + 1)
    ∧ (dev.m1 < 0 → (pfs_ffs_create true dev st).2.formats = st.formats + 1)
    ∧ (dev.m1 < 0 → dev.fmt = 0
        → (pfs_ffs_create true dev st).2.mounts = st.mounts + 2)
    ∧ ((pfs_ffs_create true dev st).1 = false
        → (pfs_ffs_create true dev st).2.live = st.live)
    ∧ ((pfs_ffs_create true dev st).1 = true
        ↔ (0 ≤ dev.m1 ∨ (dev.fmt = 0 ∧ 0 ≤ dev.m2))) := by
  by_cases hm1 : dev.m1 < 0
  · by_cases hf : dev.fmt = 0
    · by_cases hm2 : dev.m2 < 0
      · simp [pfs_ffs_create, hm1, hf, hm2]
      · simp [pfs_ffs_create, hm1, hf, hm2]
        omega
    · have hneg : dev.fmt < 0 := by omega
      simp [pfs_ffs_create, hm1, hf, hneg]
  · simp [pfs_ffs_create, hm1]
    omega

theorem c5_witness :
    (pfs_ffs_create true ⟨-1, 0, 0⟩ ⟨0, 0, 0⟩).1 = true :=
  (c5_ffs_create_retry ⟨-1, 0, 0⟩ ⟨0, 0, 0⟩ (by decide)).2.2.2.2.2.mpr
    (Or.inr ⟨rfl, by decide⟩)

/-- C6, counterexample: with a valid transmit pin (0) and an invalid
receive pin (5) on UART 0, uopen fails but has already committed the
transmit pin via gpio_set_function, refuting the claim that no pin is
reassigned when construction fails. -/
theorem c6_counterexample :
    uopen 0 true ⟨115200, 8, 1, 0, 0, 5, -1, -1⟩ = (false, [0])
    ∧ ([(0 : Int)] ≠ []) := by
  constructor
  · decide
  · decide

set_option maxHeartbeats 3200000 in
/-- C6 (amended): each requested pin is verified to be a valid alternate
function pin of the chosen UART immediately before it alone is
committed, in the order transmit, receive, clear-to-send,
ready-to-send; if any requested pin is invalid, construction fails,
but the valid requested pins processed earlier have already been
committed: the committed pins are exactly the valid requested prefix
before the first invalid requested pin. -/
theorem c6_pin_commit (uid : Int) (initOk : Bool) (sc : SERIAL_CONFIG) :
    ((uopen uid initOk sc).2 = if initOk then committedSpec uid sc else [])
    ∧ (initOk = true
        → (reqPins sc).all (fun pr => uart_pin_valid uid pr.1 pr.2) = false
        → (uopen uid initOk sc).1 = false) := by
  cases initOk with
  | false => simp [uopen]
  | true =>
    by_cases htx : 0 ≤ sc.tx <;> by_cases hrx : 0 ≤ sc.rx <;>
      by_cases hcts : 0 ≤ sc.cts <;> by_cases hrts : 0 ≤ sc.rts <;>
      by_cases vtx : uart_pin_valid uid 0 sc.tx = true <;>
      by_cases vrx : uart_pin_valid uid 1 sc.rx = true <;>
      by_cases vcts : uart_pin_valid uid 2 sc.cts = true <;>
      by_cases vrts : uart_pin_valid uid 3 sc.rts = true <;>
      simp [uopen, pinStep, reqPins, committedSpec, List.takeWhile,
        apply_ite Prod.snd, apply_ite Prod.fst,
        htx, hrx, hcts, hrts, vtx, vrx, vcts, vrts]

theorem c6_witness :
    ((uopen 0 true ⟨115200, 8, 1, 0, 0, 5, -1, -1⟩).2
      = if true then committedSpec 0 ⟨115200, 8, 1, 0, 0, 5, -1, -1⟩ else [])
    ∧ ((true : Bool) = true
        → (reqPins ⟨115200, 8, 1, 0, 0, 5, -1, -1⟩).all
            (fun pr => uart_pin_valid 0 pr.1 pr.2) = false
        → (uopen 0 true ⟨115200, 8, 1, 0, 0, 5, -1, -1⟩).1 = false) :=
  c6_pin_commit 0 true ⟨115200, 8, 1, 0, 0, 5, -1, -1⟩

/-- C10: for every uid in 0..1 whose UART instance already exists,
pfs_dev_uart_create runs uopen on the existing instance and always
returns the existing non-NULL instance, even when uopen fails its
validation; a NULL return for an in-range uid is only possible on the
first creation call (no instance existed). -/
theorem c10_existing_instance :
    (∀ (uid : Int) (allocOk initOk : Bool) (sc : SERIAL_CONFIG),
      0 ≤ uid → uid ≤ 1 →
      (pfs_dev_uart_create uid true allocOk initOk sc).1 = true)
    ∧ (∀ (uid : Int) (exists0 allocOk initOk : Bool) (sc : SERIAL_CONFIG),
      0 ≤ uid → uid ≤ 1 →
      (pfs_dev_uart_create uid exists0 allocOk initOk sc).1 = false →
      exists0 = false) := by
  constructor
  · intro uid allocOk initOk sc h0 h1
    have hrange : ¬ (uid < 0 || uid > 1) = true := by
      simp
      omega
    simp [pfs_dev_uart_create, hrange]
  · intro uid exists0 allocOk initOk sc h0 h1 hres
    cases exists0 with
    | false => rfl
    | true =>
      have hrange : ¬ (uid < 0 || uid > 1) = true := by
        simp
        omega
      simp [pfs_dev_uart_create, hrange] at hres

theorem c10_witness :
    (pfs_dev_uart_create 0 true false false ⟨115200, 8, 1, 0, 0, 5, -1, -1⟩).1 = true :=
  c10_existing_instance.1 0 false false ⟨115200, 8, 1, 0, 0, 5, -1, -1⟩
    (by decide) (by decide)

end PicoFS
